import Mathlib

/-!
Verification development for the wordle-bot suggestion engine
(`wordle_solver.py` and the session layer of `main.py`).

Words are modelled as Lean `String`s (Python `str`), feedback patterns as
`List Nat` with 0 = absent (gray), 1 = present (yellow), 2 = correct (green),
real-valued scores as `ℝ`, and the external `zipf_frequency` collaborator as
an arbitrary function `freq : String → ℝ` supplied as a parameter.
-/

namespace Wordle

/-- Words are Python strings; all words of interest have 5 characters. -/
abbrev Word := String

/-- Feedback pattern: per-position 0 (absent), 1 (present), 2 (correct). -/
abbrev Pattern := List Nat

/-! ### Pattern Codec: `feedback_pattern` (wordle_solver.py, lines 55-75)

The first ("greens") pass of the Python code walks `guess` and `target`
positionally, writing 2 into the pattern and `None` into `target_chars`
wherever the letters agree; both effects are positional `zipWith`s.
The second ("yellows") pass walks the positions left to right carrying the
mutable `target_chars` list, turning an unmarked position into 1 when the
guessed letter still occurs among the non-`None` entries and blanking the
first such occurrence (`target_chars[target_chars.index(ch)] = None`). -/

/-- Replace the first occurrence of `some c` in the list by `none`
(the effect of `target_chars[target_chars.index(ch)] = None`). -/
def consumeFirst (c : Char) : List (Option Char) → List (Option Char)
  | [] => []
  | none :: rest => none :: consumeFirst c rest
  | some x :: rest =>
      if x = c then none :: rest else some x :: consumeFirst c rest

/-- The yellows pass: walk the (green-pass pattern value, guessed letter)
pairs, carrying the remaining target letters. -/
def yellowsPass : List (Nat × Char) → List (Option Char) → List Nat
  | [], _ => []
  | (p, c) :: rest, tc =>
      if p = 0 ∧ some c ∈ tc then
        1 :: yellowsPass rest (consumeFirst c tc)
      else
        p :: yellowsPass rest tc

/-- Embedding of `feedback_pattern(guess, target)` for equal-length words
(the repository only ever calls it on 5-letter words). -/
def feedback_pattern (guess target : Word) : Pattern :=
  let g := guess.toList
  let t := target.toList
  let greens := List.zipWith (fun gc tc => if tc = gc then (2 : Nat) else 0) g t
  let remaining :=
    List.zipWith (fun gc tc => if tc = gc then (none : Option Char) else some tc) g t
  yellowsPass (greens.zip g) remaining

/-! ### Spec-side reference codec (spec §4.1)

The specification describes the second pass via a *multiset* of unconsumed
target letters.  `feedbackSpec` follows the spec text; claim C3 compares it
with the source embedding `feedback_pattern`. -/

/-- Spec second pass: for each position not yet marked CORRECT, mark PRESENT
(1) if the guessed letter occurs in the remaining multiset of target
letters, consuming one occurrence; otherwise ABSENT (0). -/
def specYellows : List (Nat × Char) → Multiset Char → List Nat
  | [], _ => []
  | (p, c) :: rest, m =>
      if p = 0 then
        if c ∈ m then 1 :: specYellows rest (m.erase c)
        else 0 :: specYellows rest m
      else
        p :: specYellows rest m

/-- Reference feedback following the spec wording: first pass marks CORRECT
positionally and consumes those target letters; the second pass works on the
multiset of remaining target letters. -/
def feedbackSpec (guess target : Word) : Pattern :=
  let g := guess.toList
  let t := target.toList
  let corrects := List.zipWith (fun gc tc => if tc = gc then (2 : Nat) else 0) g t
  let leftover :=
    (List.zipWith (fun gc tc => if tc = gc then (none : Option Char) else some tc) g t).filterMap id
  specYellows (corrects.zip g) (leftover : Multiset Char)

/-! ### Candidate Filter (wordle_solver.py, lines 78-88) -/

/-- Embedding of `filter_candidates(candidates, guess, pattern)`. -/
def filter_candidates (candidates : List Word) (guess : Word) (pattern : Pattern) :
    List Word :=
  candidates.filter (fun w => feedback_pattern guess w = pattern)

/-- Embedding of `is_consistent(word, history)`. -/
def is_consistent (word : Word) (history : List (Word × Pattern)) : Bool :=
  history.all (fun gp => feedback_pattern gp.1 word = gp.2)

/-! ### Entropy Scorer (wordle_solver.py, lines 95-108)

`expected_entropy` builds `partitions`, a pattern → count map over the
candidates (realized patterns only), then sums `-p * log2 p` over the counts.
The dictionary is modelled as the list of distinct realized patterns
(`dedup`) with their multiplicities (`count`); the sum is order-independent,
so the iteration order of the Python dict is irrelevant. -/

/-- The feedback pattern each candidate would produce against `guess`. -/
def patternList (guess : Word) (candidates : List Word) : List Pattern :=
  candidates.map (fun target => feedback_pattern guess target)

/-- The sizes of the realized partitions (`partitions.values()`): one count
per distinct realized pattern, no zero-count entries. -/
def partitionCounts (guess : Word) (candidates : List Word) : List Nat :=
  (patternList guess candidates).dedup.map
    (fun p => (patternList guess candidates).count p)

/-- Embedding of `expected_entropy(guess, candidates)`:
`-Σ (count/total) * log2 (count/total)` over the realized partition counts,
with `total = len(candidates)`. -/
noncomputable def expected_entropy (guess : Word) (candidates : List Word) : ℝ :=
  ((partitionCounts guess candidates).map
    (fun c : ℕ => -(((c : ℝ) / (candidates.length : ℝ)) *
        Real.logb 2 ((c : ℝ) / (candidates.length : ℝ))))).sum

/-! ### Hybrid Ranker (wordle_solver.py, lines 111-124)

`zipf_frequency(guess, "en")` is an external collaborator; it is modelled as
an arbitrary function `freq : Word → ℝ` passed in as a parameter. -/

/-- The frequency normalisation of `hybrid_score`: clamp to `[1, 7]` then
rescale, `(max (min f 7) 1 - 1) / 6`. -/
noncomputable def freq_norm (f : ℝ) : ℝ :=
  (max (min f 7) 1 - 1) / 6

/-- Embedding of `hybrid_score(guess, candidates, alpha)` with the external
frequency signal `freq` as a parameter. -/
noncomputable def hybrid_score (freq : Word → ℝ) (guess : Word)
    (candidates : List Word) (alpha : ℝ) : ℝ :=
  alpha * expected_entropy guess candidates + (1 - alpha) * freq_norm (freq guess)

/-- Embedding of the module-level worker `_score_word_worker(args)`:
unpack `(word, candidates, alpha)` and return `(score, word)`. -/
noncomputable def score_word_worker (freq : Word → ℝ)
    (args : Word × List Word × ℝ) : ℝ × Word :=
  (hybrid_score freq args.1 args.2.1 args.2.2, args.1)

/-! ### Suggestion pipeline (wordle_solver.py, lines 221-260)

Python sorts the `(score, word)` list with `scores.sort(reverse=True)`:
descending lexicographic order on the pair, scores compared as numbers and
words as strings.  `descLE a b` says `a` may precede `b` in that order. -/

open Classical in
/-- The descending comparator used to sort `(score, word)` pairs:
`a` precedes `b` when `a`'s score is larger, or the scores are equal and
`a`'s word is lexicographically at least `b`'s. -/
noncomputable def descLE (a b : ℝ × Word) : Bool :=
  decide (b.1 < a.1 ∨ (a.1 = b.1 ∧ b.2 ≤ a.2))

/-- `scores.sort(reverse=True)`. -/
noncomputable def sortDesc (scores : List (ℝ × Word)) : List (ℝ × Word) :=
  scores.mergeSort descLE

/-- `scores.sort(reverse=True)` followed by `[w for _, w in scores[:topk]]`. -/
noncomputable def rankFrom (scores : List (ℝ × Word)) (topk : Nat) : List Word :=
  ((sortDesc scores).take topk).map Prod.snd

/-- The serial scoring loop: `[(hybrid_score(w, candidates, alpha), w) for w in pool]`. -/
noncomputable def serialScores (freq : Word → ℝ) (pool candidates : List Word)
    (alpha : ℝ) : List (ℝ × Word) :=
  pool.map (fun w => (hybrid_score freq w candidates alpha, w))

/-- The parallel scoring fan-out: `executor.map(_score_word_worker, args)`
with `args = [(w, candidates, alpha) for w in pool]`.  `executor.map` yields
results in the order of its input regardless of worker completion order. -/
noncomputable def parallelScores (freq : Word → ℝ) (pool candidates : List Word)
    (alpha : ℝ) : List (ℝ × Word) :=
  pool.map (fun w => score_word_worker freq (w, candidates, alpha))

/-- Embedding of `suggest_guesses(candidates, all_words, alpha, topk,
restrict_guesses)`: choose the guess pool, score it serially below 500 words
and via the process pool otherwise, sort descending, truncate to `topk`. -/
noncomputable def suggest_guesses (freq : Word → ℝ) (candidates all_words : List Word)
    (alpha : ℝ) (topk : Nat) (restrict_guesses : Bool) : List Word :=
  let guess_pool := if restrict_guesses then candidates else all_words
  if guess_pool.length < 500 then
    rankFrom (serialScores freq guess_pool candidates alpha) topk
  else
    rankFrom (parallelScores freq guess_pool candidates alpha) topk

/-! ### Solver Session (wordle_solver.py, lines 142-214; main.py, lines 161-232) -/

/-- The mutable state of a `WordleSolver` instance. -/
structure WordleSolver where
  all_words : List Word
  candidates : List Word
  history : List (Word × Pattern)
deriving DecidableEq, Repr

/-- Embedding of `WordleSolver.__init__(n_top, filter_past_answers)`.
`build_dictionary` consults an external corpus and a network fetch, so its
two outcomes are parameters: `dictAll` is
`build_dictionary(n_top, filter_past_answers=False)` (stored as `all_words`)
and `dictFiltered` is `build_dictionary(n_top, filter_past_answers=True)`
(the candidate list when the flag is set). -/
def initSolver (dictAll dictFiltered : List Word) (filter_past_answers : Bool) :
    WordleSolver :=
  { all_words := dictAll
    candidates := if filter_past_answers then dictFiltered else dictAll
    history := [] }

/-- Embedding of `WordleSolver.reset()`: `self.candidates = self.all_words[:]`
and `self.history = []`. -/
def WordleSolver.reset (s : WordleSolver) : WordleSolver :=
  { s with candidates := s.all_words, history := [] }

/-- The state change performed by `WordleSolver.guess(word, pattern, ...)`:
append the record to the history, then filter the candidates. -/
def guessStep (s : WordleSolver) (word : Word) (pattern : Pattern) : WordleSolver :=
  { s with
    history := s.history ++ [(word, pattern)]
    candidates := filter_candidates s.candidates word pattern }

/-- Embedding of `WordleSolver.guess(word, pattern, alpha, topk,
restrict_guesses)`: returns the updated solver together with the returned
suggestion list (empty on 0 candidates, the singleton candidate list on 1,
`suggest_guesses` otherwise). -/
noncomputable def WordleSolver.guess (s : WordleSolver) (freq : Word → ℝ)
    (word : Word) (pattern : Pattern) (alpha : ℝ) (topk : Nat)
    (restrict_guesses : Bool) : WordleSolver × List Word :=
  let s1 := guessStep s word pattern
  if s1.candidates.length = 0 then (s1, [])
  else if s1.candidates.length = 1 then (s1, s1.candidates)
  else (s1, suggest_guesses freq s1.candidates s1.all_words alpha topk restrict_guesses)

/-- Fold a sequence of `(word, pattern)` records through the state change of
`guess` (the suggestion computation does not affect the state). -/
def runGuesses (s : WordleSolver) (gs : List (Word × Pattern)) : WordleSolver :=
  gs.foldl (fun st gp => guessStep st gp.1 gp.2) s

/-- The session states of spec §4.6. -/
inductive SessionState
  | Initialized
  | Active
  | Solved
  | Exhausted
deriving DecidableEq, Repr

/-- Modelled from the spec: §4.6 classifies a session as Exhausted on 0
remaining candidates, Solved on exactly 1, Initialized when the history is
empty, and Active otherwise; `main.py` realizes the Solved/Exhausted cases
as `is_solved = len(candidates) == 1` and the zero-candidate message. -/
def sessionState (s : WordleSolver) : SessionState :=
  if s.candidates.length = 0 then .Exhausted
  else if s.candidates.length = 1 then .Solved
  else if s.history = [] then .Initialized
  else .Active

/-- The status message computed by `submit_guess` in `main.py` after a guess:
an explanatory message when no candidates remain, a solved message on exactly
one, nothing otherwise. -/
def statusMessage (s : WordleSolver) : Option String :=
  if s.candidates.length = 0 then some "No candidates remain - check your pattern"
  else if s.candidates.length = 1 then some ("Solved! Answer is " ++ s.candidates.headI)
  else none

/-! ### Codec equivalence lemmas (claim C3) -/

/-- Membership of a letter among the non-consumed entries of `target_chars`
is membership in the list of its non-`None` letters. -/
lemma some_mem_iff_mem_filterMap (c : Char) (tc : List (Option Char)) :
    some c ∈ tc ↔ c ∈ tc.filterMap id := by
  simp [List.mem_filterMap]

/-- Blanking the first occurrence of a letter in `target_chars` erases one
occurrence from the list of its non-`None` letters. -/
lemma filterMap_consumeFirst (c : Char) (tc : List (Option Char)) :
    some c ∈ tc → (consumeFirst c tc).filterMap id = (tc.filterMap id).erase c := by
  induction tc with
  | nil => intro h; cases h
  | cons o rest ih =>
      intro h
      cases o with
      | none =>
          have hr : some c ∈ rest := by simpa using h
          simpa [consumeFirst] using ih hr
      | some x =>
          by_cases hx : x = c
          · subst hx
            simp [consumeFirst, List.erase_cons_head]
          · have hcx : ¬(c = x) := fun hh => hx hh.symm
            have hr : some c ∈ rest := by simpa [hcx] using h
            have hbeq : ¬(x == c) = true := by simpa using hx
            simp [consumeFirst, hx, List.erase_cons_tail, hbeq, ih hr]

/-- The source yellows pass over the hole-carrying `target_chars` list agrees
with the spec yellows pass over the multiset of remaining target letters. -/
lemma yellowsPass_eq_specYellows :
    ∀ (ps : List (Nat × Char)) (tc : List (Option Char)),
      yellowsPass ps tc = specYellows ps ((tc.filterMap id : List Char) : Multiset Char)
  | [], _ => rfl
  | (p, c) :: rest, tc => by
      simp only [yellowsPass, specYellows]
      by_cases hp : p = 0
      · by_cases hc : some c ∈ tc
        · have hmem : c ∈ ((tc.filterMap id : List Char) : Multiset Char) := by
            rw [Multiset.mem_coe]
            exact (some_mem_iff_mem_filterMap c tc).mp hc
          rw [if_pos ⟨hp, hc⟩, if_pos hp, if_pos hmem, Multiset.coe_erase,
            ← filterMap_consumeFirst c tc hc]
          exact congrArg (1 :: ·) (yellowsPass_eq_specYellows rest (consumeFirst c tc))
        · have hmem : c ∉ ((tc.filterMap id : List Char) : Multiset Char) := by
            rw [Multiset.mem_coe]
            exact fun h => hc ((some_mem_iff_mem_filterMap c tc).mpr h)
          rw [if_neg (fun hand => hc hand.2), if_pos hp, if_neg hmem, hp]
          exact congrArg (0 :: ·) (yellowsPass_eq_specYellows rest tc)
      · rw [if_neg (fun hand => hp hand.1), if_neg hp]
        exact congrArg (p :: ·) (yellowsPass_eq_specYellows rest tc)

end Wordle

section SanityChecks
open Wordle

example : feedback_pattern "crane" "trace" = [1, 2, 2, 0, 2] := by decide
example : feedback_pattern "crane" "crane" = [2, 2, 2, 2, 2] := by decide
example : feedbackSpec "crane" "trace" = [1, 2, 2, 0, 2] := by decide

end SanityChecks

namespace Wordle

/-- C3: for every 5-letter guess and target, `feedback_pattern` equals the
spec's two-pass multiset reference definition, and in particular
`feedback_pattern "crane" "trace" = (1, 2, 2, 0, 2)` (PRESENT, CORRECT,
CORRECT, ABSENT, CORRECT). -/
theorem C3_feedback_matches_two_pass_reference :
    (∀ g t : Word, g.length = 5 → t.length = 5 →
        feedback_pattern g t = feedbackSpec g t) ∧
      feedback_pattern "crane" "trace" = [1, 2, 2, 0, 2] := by
  constructor
  · intro g t _ _
    simp only [feedback_pattern, feedbackSpec]
    exact yellowsPass_eq_specYellows _ _
  · decide

/-- C3 witness: the equivalence instantiated at the concrete pair
("crane", "trace"). -/
theorem C3_feedback_matches_two_pass_reference_witness :
    feedback_pattern "crane" "trace" = feedbackSpec "crane" "trace" :=
  C3_feedback_matches_two_pass_reference.1 "crane" "trace" (by decide) (by decide)

/-- C9: filtering is idempotent: re-filtering an already-filtered candidate
list by the same guess and pattern is a no-op. -/
theorem C9_filter_candidates_idempotent :
    ∀ (C : List Word) (g : Word) (p : Pattern),
      filter_candidates (filter_candidates C g p) g p = filter_candidates C g p := by
  intro C g p
  simp only [filter_candidates]
  exact List.filter_eq_self.mpr fun a ha => (List.mem_filter.mp ha).2

/-- C10: on an empty candidate list no partition is realized, so the
entropy loop body (and its division by `total = 0`) never runs and
`expected_entropy` returns exactly 0. -/
theorem C10_expected_entropy_empty :
    ∀ g : Word, partitionCounts g [] = [] ∧ expected_entropy g [] = 0 := by
  intro g
  constructor
  · simp [partitionCounts, patternList]
  · simp [expected_entropy, partitionCounts, patternList]

/-! ### Descending sort lemmas (claims C2, C6) -/

/-- The Prop form of the descending comparator `descLE`. -/
def descRel (a b : ℝ × Word) : Prop :=
  b.1 < a.1 ∨ (a.1 = b.1 ∧ b.2 ≤ a.2)

lemma descLE_eq_true_iff (a b : ℝ × Word) : descLE a b = true ↔ descRel a b := by
  simp [descLE, descRel]

lemma descRel_total (a b : ℝ × Word) : descRel a b ∨ descRel b a := by
  rcases lt_trichotomy a.1 b.1 with h | h | h
  · exact Or.inr (Or.inl h)
  · rcases le_total a.2 b.2 with h2 | h2
    · exact Or.inr (Or.inr ⟨h.symm, h2⟩)
    · exact Or.inl (Or.inr ⟨h, h2⟩)
  · exact Or.inl (Or.inl h)

lemma descRel_trans {a b c : ℝ × Word} :
    descRel a b → descRel b c → descRel a c := by
  rintro (h1 | ⟨h1, h1w⟩) (h2 | ⟨h2, h2w⟩)
  · exact Or.inl (h2.trans h1)
  · exact Or.inl (h2 ▸ h1)
  · exact Or.inl (h1 ▸ h2)
  · exact Or.inr ⟨h1.trans h2, h2w.trans h1w⟩

lemma descRel_antisymm {a b : ℝ × Word} :
    descRel a b → descRel b a → a = b := by
  rintro (h1 | ⟨h1, h1w⟩) (h2 | ⟨h2, h2w⟩)
  · exact absurd h2 (lt_asymm h1)
  · exact absurd h1 (h2 ▸ lt_irrefl a.1)
  · exact absurd h2 (h1 ▸ lt_irrefl a.1)
  · exact Prod.ext h1 (le_antisymm h2w h1w)

instance : IsAntisymm (ℝ × Word) descRel :=
  ⟨fun _ _ h1 h2 => descRel_antisymm h1 h2⟩

lemma sortDesc_sorted (l : List (ℝ × Word)) : (sortDesc l).Pairwise descRel := by
  have h := @List.sorted_mergeSort (ℝ × Word) descLE
    (fun a b c hab hbc => (descLE_eq_true_iff a c).mpr
      (descRel_trans ((descLE_eq_true_iff a b).mp hab) ((descLE_eq_true_iff b c).mp hbc)))
    (fun a b => by
      rcases descRel_total a b with h | h
      · simp [(descLE_eq_true_iff a b).mpr h]
      · simp [(descLE_eq_true_iff b a).mpr h]) l
  exact h.imp (fun hab => (descLE_eq_true_iff _ _).mp hab)

lemma sortDesc_perm (l : List (ℝ × Word)) : (sortDesc l).Perm l :=
  List.mergeSort_perm l descLE

/-- Sorting is a deterministic total-order merge: permuted inputs sort to
the identical list. -/
lemma sortDesc_eq_of_perm {l1 l2 : List (ℝ × Word)} (h : l1.Perm l2) :
    sortDesc l1 = sortDesc l2 :=
  List.eq_of_perm_of_sorted
    ((sortDesc_perm l1).trans (h.trans (sortDesc_perm l2).symm))
    (sortDesc_sorted l1) (sortDesc_sorted l2)

/-- Each parallel work unit computes exactly the serial score pair. -/
lemma parallelScores_eq_serialScores (freq : Word → ℝ) (pool candidates : List Word)
    (alpha : ℝ) :
    parallelScores freq pool candidates alpha = serialScores freq pool candidates alpha :=
  rfl

/-- Both pool-size branches of `suggest_guesses` compute the serial ranking. -/
lemma suggest_guesses_eq_rank_serial (freq : Word → ℝ) (candidates all_words : List Word)
    (alpha : ℝ) (topk : Nat) (restrict_guesses : Bool) :
    suggest_guesses freq candidates all_words alpha topk restrict_guesses =
      rankFrom (serialScores freq (if restrict_guesses then candidates else all_words)
        candidates alpha) topk := by
  simp only [suggest_guesses, parallelScores_eq_serialScores]
  rw [ite_self]

/-- The ranked output of the serial scoring of a duplicate-free pool has at
most `k` entries and is strictly descending in `(score, word)`. -/
lemma rankFrom_serialScores_sorted (freq : Word → ℝ) (pool candidates : List Word)
    (alpha : ℝ) (k : Nat) (hnd : pool.Nodup) :
    (rankFrom (serialScores freq pool candidates alpha) k).length ≤ k ∧
      (rankFrom (serialScores freq pool candidates alpha) k).Pairwise
        (fun w1 w2 =>
          hybrid_score freq w2 candidates alpha < hybrid_score freq w1 candidates alpha ∨
            (hybrid_score freq w1 candidates alpha = hybrid_score freq w2 candidates alpha ∧
              w2 < w1)) := by
  have hperm : (sortDesc (serialScores freq pool candidates alpha)).Perm
      (serialScores freq pool candidates alpha) := sortDesc_perm _
  have hsnd : (serialScores freq pool candidates alpha).map Prod.snd = pool := by
    simp [serialScores, Function.comp_def]
  have hnodup_snd : ((sortDesc (serialScores freq pool candidates alpha)).map Prod.snd).Nodup := by
    have hp2 := hperm.map Prod.snd
    rw [hsnd] at hp2
    exact hp2.nodup_iff.mpr hnd
  have hpw_ne : (sortDesc (serialScores freq pool candidates alpha)).Pairwise
      (fun a b => a.2 ≠ b.2) := List.pairwise_map.mp hnodup_snd
  have hpw_strict : (sortDesc (serialScores freq pool candidates alpha)).Pairwise
      (fun a b => b.1 < a.1 ∨ (a.1 = b.1 ∧ b.2 < a.2)) := by
    refine ((sortDesc_sorted _).and hpw_ne).imp ?_
    rintro a b ⟨hd | ⟨he, hle⟩, hne⟩
    · exact Or.inl hd
    · exact Or.inr ⟨he, hle.lt_of_ne (fun hh => hne hh.symm)⟩
  have htake : ((sortDesc (serialScores freq pool candidates alpha)).take k).Pairwise
      (fun a b => b.1 < a.1 ∨ (a.1 = b.1 ∧ b.2 < a.2)) :=
    hpw_strict.sublist (List.take_sublist k _)
  constructor
  · calc (rankFrom (serialScores freq pool candidates alpha) k).length
        = ((sortDesc (serialScores freq pool candidates alpha)).take k).length := by
          simp [rankFrom]
      _ ≤ k := List.length_take_le k _
  · rw [rankFrom]
    refine List.pairwise_map.mpr ?_
    refine htake.imp_of_mem ?_
    intro a b ha hb hab
    have hamem : a ∈ serialScores freq pool candidates alpha :=
      hperm.subset ((List.take_sublist k _).subset ha)
    have hbmem : b ∈ serialScores freq pool candidates alpha :=
      hperm.subset ((List.take_sublist k _).subset hb)
    rcases List.mem_map.mp hamem with ⟨wa, _, hwa⟩
    rcases List.mem_map.mp hbmem with ⟨wb, _, hwb⟩
    subst hwa
    subst hwb
    simpa using hab

/-- C2: each parallel work unit is the pure serial score function of
`(word, candidates, alpha)`; both pool-size branches of `suggest_guesses`
compute the serial ranking; and feeding the sort any permutation of the
scored results (any worker completion order) yields the identical ranked
list, so parallel and serial paths agree bit for bit. -/
theorem C2_parallel_merge_equals_serial :
    (∀ (freq : Word → ℝ) (pool candidates : List Word) (alpha : ℝ),
        parallelScores freq pool candidates alpha =
          serialScores freq pool candidates alpha) ∧
    (∀ (freq : Word → ℝ) (candidates all_words : List Word) (alpha : ℝ)
        (topk : Nat) (restrict_guesses : Bool),
        suggest_guesses freq candidates all_words alpha topk restrict_guesses =
          rankFrom (serialScores freq
            (if restrict_guesses then candidates else all_words) candidates alpha) topk) ∧
    (∀ (freq : Word → ℝ) (pool candidates : List Word) (alpha : ℝ) (topk : Nat)
        (results : List (ℝ × Word)),
        results.Perm (serialScores freq pool candidates alpha) →
          rankFrom results topk =
            rankFrom (serialScores freq pool candidates alpha) topk) := by
  refine ⟨parallelScores_eq_serialScores, suggest_guesses_eq_rank_serial, ?_⟩
  intro freq pool candidates alpha topk results h
  rw [rankFrom, rankFrom, sortDesc_eq_of_perm h]

/-- C2 witness: reversing the scored results of a concrete pool (a worker
completion order opposite to the input order) leaves the ranked output
unchanged. -/
theorem C2_parallel_merge_equals_serial_witness :
    rankFrom ((serialScores (fun _ => 0) ["crane", "trace"] ["crane"] 0).reverse) 5 =
      rankFrom (serialScores (fun _ => 0) ["crane", "trace"] ["crane"] 0) 5 :=
  C2_parallel_merge_equals_serial.2.2 (fun _ => 0) ["crane", "trace"] ["crane"] 0 5
    ((serialScores (fun _ => 0) ["crane", "trace"] ["crane"] 0).reverse)
    (List.reverse_perm _)

/-- C6: for a duplicate-free guess pool, `suggest_guesses` with `topk = k`
returns at most `k` words, pairwise strictly descending in the pair
(hybrid score, word): higher scores first, score ties broken by descending
lexicographic word order. -/
theorem C6_suggest_returns_topk_strictly_sorted :
    ∀ (freq : Word → ℝ) (candidates all_words : List Word) (alpha : ℝ) (k : Nat)
      (restrict_guesses : Bool),
      1 ≤ k →
      (if restrict_guesses then candidates else all_words).Nodup →
        (suggest_guesses freq candidates all_words alpha k restrict_guesses).length ≤ k ∧
          (suggest_guesses freq candidates all_words alpha k restrict_guesses).Pairwise
            (fun w1 w2 =>
              hybrid_score freq w2 candidates alpha < hybrid_score freq w1 candidates alpha ∨
                (hybrid_score freq w1 candidates alpha =
                    hybrid_score freq w2 candidates alpha ∧
                  w2 < w1)) := by
  intro freq candidates all_words alpha k restrict_guesses _ hnd
  rw [suggest_guesses_eq_rank_serial]
  exact rankFrom_serialScores_sorted freq _ candidates alpha k hnd

/-- C6 witness: the theorem instantiated on the duplicate-free candidate
pool ["crane", "trace"] with `topk = 5`. -/
theorem C6_suggest_returns_topk_strictly_sorted_witness :
    (suggest_guesses (fun _ => 0) ["crane", "trace"] [] 0 5 true).length ≤ 5 ∧
      (suggest_guesses (fun _ => 0) ["crane", "trace"] [] 0 5 true).Pairwise
        (fun w1 w2 =>
          hybrid_score (fun _ => 0) w2 ["crane", "trace"] 0 <
              hybrid_score (fun _ => 0) w1 ["crane", "trace"] 0 ∨
            (hybrid_score (fun _ => 0) w1 ["crane", "trace"] 0 =
                hybrid_score (fun _ => 0) w2 ["crane", "trace"] 0 ∧
              w2 < w1)) :=
  C6_suggest_returns_topk_strictly_sorted (fun _ => 0) ["crane", "trace"] [] 0 5 true
    (by decide) (by decide)

/-! ### Session invariant lemmas (claims C5, C7) -/

/-- The solver state produced by `guess` is `guessStep` in every branch. -/
lemma guess_fst (s : WordleSolver) (freq : Word → ℝ) (w : Word) (p : Pattern)
    (alpha : ℝ) (topk : Nat) (r : Bool) :
    (s.guess freq w p alpha topk r).1 = guessStep s w p := by
  simp only [WordleSolver.guess]
  split_ifs <;> rfl

/-- Strict shrinking: if some candidate is inconsistent with the supplied
pattern, filtering strictly reduces the candidate count. -/
lemma filter_candidates_length_lt (C : List Word) (g : Word) (p : Pattern)
    (h : ∃ w ∈ C, feedback_pattern g w ≠ p) :
    (filter_candidates C g p).length < C.length := by
  rcases h with ⟨w, hw, hne⟩
  by_contra hle
  push_neg at hle
  have hsub : List.Sublist (filter_candidates C g p) C := List.filter_sublist C
  have heq : filter_candidates C g p = C :=
    hsub.eq_of_length (le_antisymm hsub.length_le hle)
  have hall := List.filter_eq_self.mp heq w hw
  exact hne (by simpa using hall)

/-- Running any sequence of guesses preserves the history-consistency
invariant of the candidate set. -/
lemma runGuesses_consistent :
    ∀ (gs : List (Word × Pattern)) (s : WordleSolver),
      (∀ w ∈ s.candidates, ∀ gp ∈ s.history, feedback_pattern gp.1 w = gp.2) →
      ∀ w ∈ (runGuesses s gs).candidates, ∀ gp ∈ (runGuesses s gs).history,
        feedback_pattern gp.1 w = gp.2
  | [], _, hs => hs
  | a :: rest, s, hs => by
      have hstep : ∀ w ∈ (guessStep s a.1 a.2).candidates,
          ∀ gp ∈ (guessStep s a.1 a.2).history, feedback_pattern gp.1 w = gp.2 := by
        intro w hw gp hgp
        have hw2 : w ∈ s.candidates ∧ feedback_pattern a.1 w = a.2 := by
          simpa [guessStep, filter_candidates, List.mem_filter] using hw
        have hgp2 : gp ∈ s.history ∨ gp = a := by
          simpa [guessStep] using hgp
        rcases hgp2 with h1 | h2
        · exact hs w hw2.1 gp h1
        · subst h2; exact hw2.2
      simpa [runGuesses] using
        runGuesses_consistent rest (guessStep s a.1 a.2) hstep

/-- C5: each guess updates the state by filtering, the filtered candidate
set is a subset of the previous one (so its size is non-increasing), the
size strictly decreases whenever some current candidate disagrees with the
supplied pattern, and after any sequence of guesses from a freshly
constructed solver every remaining candidate matches every history record. -/
theorem C5_guess_monotone_and_consistent :
    (∀ (s : WordleSolver) (freq : Word → ℝ) (w : Word) (p : Pattern) (alpha : ℝ)
        (topk : Nat) (r : Bool),
        (s.guess freq w p alpha topk r).1 = guessStep s w p) ∧
    (∀ (C : List Word) (g : Word) (p : Pattern), filter_candidates C g p ⊆ C) ∧
    (∀ (C : List Word) (g : Word) (p : Pattern),
        (filter_candidates C g p).length ≤ C.length) ∧
    (∀ (C : List Word) (g : Word) (p : Pattern),
        (∃ w ∈ C, feedback_pattern g w ≠ p) →
          (filter_candidates C g p).length < C.length) ∧
    (∀ (dictAll dictFiltered : List Word) (flag : Bool) (gs : List (Word × Pattern)),
        ∀ w ∈ (runGuesses (initSolver dictAll dictFiltered flag) gs).candidates,
          ∀ gp ∈ (runGuesses (initSolver dictAll dictFiltered flag) gs).history,
            feedback_pattern gp.1 w = gp.2) := by
  refine ⟨guess_fst, ?_, ?_, filter_candidates_length_lt, ?_⟩
  · intro C g p
    exact (List.filter_sublist C).subset
  · intro C g p
    exact (List.filter_sublist C).length_le
  · intro dictAll dictFiltered flag gs
    refine runGuesses_consistent gs (initSolver dictAll dictFiltered flag) ?_
    intro w _ gp hgp
    exact absurd hgp (List.not_mem_nil gp)

/-- C5 witness: guessing "crane" against the candidates
["crane", "trace"] with the all-green pattern strictly shrinks the set,
because "trace" yields a different pattern. -/
theorem C5_guess_monotone_and_consistent_witness :
    (filter_candidates ["crane", "trace"] "crane" [2, 2, 2, 2, 2]).length <
      (["crane", "trace"] : List Word).length :=
  C5_guess_monotone_and_consistent.2.2.2.1 ["crane", "trace"] "crane"
    [2, 2, 2, 2, 2] ⟨"trace", by decide, by decide⟩

/-- C7: when filtering leaves zero candidates, `guess` returns an empty
suggestion list, the session is Exhausted with the explanatory status
message of `main.py`, and `reset()` returns it to a usable Initialized
state (candidates back to the full dictionary, history empty). -/
theorem C7_exhausted_is_terminal_but_resettable :
    ∀ (s : WordleSolver) (freq : Word → ℝ) (w : Word) (p : Pattern) (alpha : ℝ)
      (topk : Nat) (r : Bool),
      filter_candidates s.candidates w p = [] →
        (s.guess freq w p alpha topk r).2 = [] ∧
        sessionState (s.guess freq w p alpha topk r).1 = SessionState.Exhausted ∧
        statusMessage (s.guess freq w p alpha topk r).1 =
          some "No candidates remain - check your pattern" ∧
        ((s.guess freq w p alpha topk r).1.reset).candidates = s.all_words ∧
        ((s.guess freq w p alpha topk r).1.reset).history = [] ∧
        (2 ≤ s.all_words.length →
          sessionState ((s.guess freq w p alpha topk r).1.reset) =
            SessionState.Initialized) := by
  intro s freq w p alpha topk r h
  have hfst : (s.guess freq w p alpha topk r).1 = guessStep s w p :=
    guess_fst s freq w p alpha topk r
  have hcand : (guessStep s w p).candidates = [] := by
    simpa [guessStep] using h
  have hsnd : (s.guess freq w p alpha topk r).2 = [] := by
    simp only [WordleSolver.guess]
    rw [if_pos (by simpa [guessStep] using congrArg List.length hcand)]
  refine ⟨hsnd, ?_, ?_, ?_, ?_, ?_⟩
  · rw [hfst]
    simp [sessionState, hcand]
  · rw [hfst]
    simp [statusMessage, hcand]
  · rw [hfst]
    simp [WordleSolver.reset, guessStep]
  · rw [hfst]
    simp [WordleSolver.reset]
  · intro hlen
    rw [hfst]
    have hA : ¬(s.all_words = []) := by
      intro hnil
      rw [hnil] at hlen
      simp at hlen
    have hB : ¬(s.all_words.length = 1) := by omega
    simp [sessionState, WordleSolver.reset, guessStep, hA, hB]

/-- C7 witness: a concrete session over the dictionary
["crane", "trace"] whose single candidate "trace" is inconsistent with an
all-gray pattern for "crane". -/
theorem C7_exhausted_is_terminal_but_resettable_witness :
    (WordleSolver.guess ⟨["crane", "trace"], ["trace"], []⟩ (fun _ => 0)
        "crane" [0, 0, 0, 0, 0] 0 5 true).2 = [] ∧
      sessionState (WordleSolver.guess ⟨["crane", "trace"], ["trace"], []⟩ (fun _ => 0)
        "crane" [0, 0, 0, 0, 0] 0 5 true).1 = SessionState.Exhausted ∧
      statusMessage (WordleSolver.guess ⟨["crane", "trace"], ["trace"], []⟩ (fun _ => 0)
        "crane" [0, 0, 0, 0, 0] 0 5 true).1 =
        some "No candidates remain - check your pattern" ∧
      ((WordleSolver.guess ⟨["crane", "trace"], ["trace"], []⟩ (fun _ => 0)
        "crane" [0, 0, 0, 0, 0] 0 5 true).1.reset).candidates = ["crane", "trace"] ∧
      ((WordleSolver.guess ⟨["crane", "trace"], ["trace"], []⟩ (fun _ => 0)
        "crane" [0, 0, 0, 0, 0] 0 5 true).1.reset).history = [] ∧
      (2 ≤ (["crane", "trace"] : List Word).length →
        sessionState ((WordleSolver.guess ⟨["crane", "trace"], ["trace"], []⟩ (fun _ => 0)
          "crane" [0, 0, 0, 0, 0] 0 5 true).1.reset) = SessionState.Initialized) :=
  C7_exhausted_is_terminal_but_resettable ⟨["crane", "trace"], ["trace"], []⟩
    (fun _ => 0) "crane" [0, 0, 0, 0, 0] 0 5 true (by decide)

/-! ### Entropy bound lemmas (claim C4)

Throughout, `N` stands for the real candidate count and `p = c / N` for the
probability mass of a realized partition with `c` candidates. -/

lemma term_nonneg {p : ℝ} (hp : 0 < p) (hp1 : p ≤ 1) :
    0 ≤ -(p * Real.logb 2 p) := by
  have hl : Real.logb 2 p ≤ 0 := Real.logb_nonpos one_lt_two hp.le hp1
  have := mul_nonpos_of_nonneg_of_nonpos hp.le hl
  linarith

lemma term_pos {p : ℝ} (hp : 0 < p) (hp1 : p < 1) :
    0 < -(p * Real.logb 2 p) := by
  have hl : Real.logb 2 p < 0 := Real.logb_neg one_lt_two hp hp1
  nlinarith

lemma term_le {p N : ℝ} (hN : 0 < N) (hp : 0 < p) (hlow : 1 / N ≤ p) :
    -(p * Real.logb 2 p) ≤ p * Real.logb 2 N := by
  have h0 : (0 : ℝ) < 1 / N := by positivity
  have hmono : Real.logb 2 (1 / N) ≤ Real.logb 2 p :=
    Real.logb_le_logb_of_le one_lt_two h0 hlow
  rw [one_div, Real.logb_inv] at hmono
  have h2 : p * -Real.logb 2 N ≤ p * Real.logb 2 p :=
    mul_le_mul_of_nonneg_left hmono hp.le
  nlinarith

lemma term_lt {p N : ℝ} (hN : 0 < N) (hlow : 1 / N < p) :
    -(p * Real.logb 2 p) < p * Real.logb 2 N := by
  have h0 : (0 : ℝ) < 1 / N := by positivity
  have hp : 0 < p := lt_trans h0 hlow
  have hmono : Real.logb 2 (1 / N) < Real.logb 2 p :=
    Real.logb_lt_logb one_lt_two h0 hlow
  rw [one_div, Real.logb_inv] at hmono
  have h2 : p * -Real.logb 2 N < p * Real.logb 2 p :=
    (mul_lt_mul_left hp).mpr hmono
  nlinarith

lemma patternList_length (g : Word) (C : List Word) :
    (patternList g C).length = C.length := List.length_map _ _

/-- The two `BEq Pattern` instances in scope (the structural one used when
elaborating `partitionCounts` and the one derived from decidable equality
used by the Mathlib dedup-count lemma) count identically. -/
lemma count_pattern_instances (p : Pattern) (l : List Pattern) :
    l.count p = @List.count Pattern instBEqOfDecidableEq p l := by
  induction l with
  | nil => rfl
  | cons q t ih =>
      rw [List.count_cons, @List.count_cons Pattern instBEqOfDecidableEq p q t, ih]
      by_cases h : q = p
      · subst h; simp
      · simp [h]

lemma partitionCounts_sum (g : Word) (C : List Word) :
    (partitionCounts g C).sum = C.length := by
  rw [partitionCounts]
  rw [List.map_congr_left
    (fun p _ => count_pattern_instances p (patternList g C))]
  rw [List.sum_map_count_dedup_eq_length, patternList_length]

lemma partitionCounts_pos (g : Word) (C : List Word) :
    ∀ c ∈ partitionCounts g C, 1 ≤ c := by
  intro c hc
  rcases List.mem_map.mp hc with ⟨p, hp, hcount⟩
  rw [← hcount]
  exact List.count_pos_iff.mpr (List.mem_dedup.mp hp)

lemma partitionCounts_le (g : Word) (C : List Word) :
    ∀ c ∈ partitionCounts g C, c ≤ C.length := by
  intro c hc
  rcases List.mem_map.mp hc with ⟨p, hp, hcount⟩
  rw [← hcount, ← patternList_length g C]
  exact List.count_le_length p _

lemma partitionCounts_ne_nil (g : Word) (C : List Word) (hC : C ≠ []) :
    partitionCounts g C ≠ [] := by
  rcases List.exists_mem_of_ne_nil C hC with ⟨w, hw⟩
  have hmem : feedback_pattern g w ∈ (patternList g C).dedup :=
    List.mem_dedup.mpr (List.mem_map.mpr ⟨w, hw, rfl⟩)
  intro hnil
  rw [partitionCounts, List.map_eq_nil_iff] at hnil
  rw [hnil] at hmem
  cases hmem

lemma partitionCounts_cast_sum (g : Word) (C : List Word) :
    ((partitionCounts g C).map (fun c : ℕ => (c : ℝ))).sum = (C.length : ℝ) := by
  have h := Nat.cast_list_sum (β := ℝ) (partitionCounts g C)
  rw [partitionCounts_sum] at h
  exact h.symm

/-- Pointwise bound of claim C4: each realized entropy term is at most its
probability mass times `log2 N`. -/
lemma entropy_term_le (g : Word) (C : List Word) :
    ∀ c ∈ partitionCounts g C,
      -((c : ℝ) / (C.length : ℝ) * Real.logb 2 ((c : ℝ) / (C.length : ℝ))) ≤
        (c : ℝ) * (Real.logb 2 (C.length : ℝ) / (C.length : ℝ)) := by
  intro c hc
  have h1 : 1 ≤ c := partitionCounts_pos g C c hc
  have h2 : c ≤ C.length := partitionCounts_le g C c hc
  have hn : 0 < C.length := lt_of_lt_of_le (lt_of_lt_of_le Nat.zero_lt_one h1) h2
  have hN : (0 : ℝ) < (C.length : ℝ) := by exact_mod_cast hn
  have hcR : (1 : ℝ) ≤ (c : ℝ) := by exact_mod_cast h1
  have hp : 0 < (c : ℝ) / (C.length : ℝ) :=
    div_pos (lt_of_lt_of_le zero_lt_one hcR) hN
  have hlow : 1 / (C.length : ℝ) ≤ (c : ℝ) / (C.length : ℝ) :=
    (div_le_div_iff_of_pos_right hN).mpr hcR
  calc -((c : ℝ) / (C.length : ℝ) * Real.logb 2 ((c : ℝ) / (C.length : ℝ)))
      ≤ (c : ℝ) / (C.length : ℝ) * Real.logb 2 (C.length : ℝ) := term_le hN hp hlow
    _ = (c : ℝ) * (Real.logb 2 (C.length : ℝ) / (C.length : ℝ)) := by ring

/-- The comparison sum evaluates to exactly `log2 N`. -/
lemma entropy_bound_sum (g : Word) (C : List Word) (hC : C ≠ []) :
    ((partitionCounts g C).map
        (fun c : ℕ => (c : ℝ) * (Real.logb 2 (C.length : ℝ) / (C.length : ℝ)))).sum =
      Real.logb 2 (C.length : ℝ) := by
  have hn : 0 < C.length := List.length_pos.mpr hC
  have hN : ((C.length : ℝ)) ≠ 0 := by
    have : (0 : ℝ) < (C.length : ℝ) := by exact_mod_cast hn
    exact ne_of_gt this
  rw [List.sum_map_mul_right, partitionCounts_cast_sum]
  field_simp

/-- A duplicate-free list whose elements are all equal has length at most 1. -/
lemma length_le_one_of_nodup_all_eq {α : Type} {l : List α} (hd : l.Nodup)
    (a : α) (h : ∀ x ∈ l, x = a) : l.length ≤ 1 := by
  cases l with
  | nil => simp
  | cons b t =>
      cases t with
      | nil => simp
      | cons b2 t2 =>
          exfalso
          have hb : b = a := h b (by simp)
          have hb2 : b2 = a := h b2 (by simp)
          have hne : b ∉ b2 :: t2 := (List.nodup_cons.mp hd).1
          exact hne ((hb.trans hb2.symm) ▸ List.mem_cons_self b2 t2)

lemma dedup_length_one_iff {α : Type} [DecidableEq α] {l : List α} (hl : l ≠ []) :
    l.dedup.length = 1 ↔ ∀ x ∈ l, ∀ y ∈ l, x = y := by
  constructor
  · intro h x hx y hy
    rcases List.length_eq_one.mp h with ⟨a, ha⟩
    have hxa : x = a := by
      have hm := List.mem_dedup.mpr hx
      rw [ha] at hm
      simpa using hm
    have hya : y = a := by
      have hm := List.mem_dedup.mpr hy
      rw [ha] at hm
      simpa using hm
    rw [hxa, hya]
  · intro h
    rcases List.exists_mem_of_ne_nil l hl with ⟨a, ha⟩
    have hsub : ∀ x ∈ l.dedup, x = a := fun x hx => h x (List.mem_dedup.mp hx) a ha
    have hle : l.dedup.length ≤ 1 :=
      length_le_one_of_nodup_all_eq (List.nodup_dedup l) a hsub
    have hge : 1 ≤ l.dedup.length := by
      have : a ∈ l.dedup := List.mem_dedup.mpr ha
      exact List.length_pos.mpr (List.ne_nil_of_mem this)
    omega

lemma entropy_nonneg (g : Word) (C : List Word) : 0 ≤ expected_entropy g C := by
  rw [expected_entropy]
  apply List.sum_nonneg
  intro x hx
  rcases List.mem_map.mp hx with ⟨c, hc, hxc⟩
  rw [← hxc]
  have h1 : 1 ≤ c := partitionCounts_pos g C c hc
  have h2 : c ≤ C.length := partitionCounts_le g C c hc
  have hn : 0 < C.length := lt_of_lt_of_le (lt_of_lt_of_le Nat.zero_lt_one h1) h2
  have hN : (0 : ℝ) < (C.length : ℝ) := by exact_mod_cast hn
  have hcR : (1 : ℝ) ≤ (c : ℝ) := by exact_mod_cast h1
  have hp : 0 < (c : ℝ) / (C.length : ℝ) :=
    div_pos (lt_of_lt_of_le zero_lt_one hcR) hN
  have hp1 : (c : ℝ) / (C.length : ℝ) ≤ 1 :=
    (div_le_one hN).mpr (by exact_mod_cast h2)
  exact term_nonneg hp hp1

lemma entropy_le_logb (g : Word) (C : List Word) (hC : C ≠ []) :
    expected_entropy g C ≤ Real.logb 2 (C.length : ℝ) := by
  rw [expected_entropy]
  calc ((partitionCounts g C).map
        (fun c : ℕ => -(((c : ℝ) / (C.length : ℝ)) *
          Real.logb 2 ((c : ℝ) / (C.length : ℝ))))).sum
      ≤ ((partitionCounts g C).map
        (fun c : ℕ => (c : ℝ) * (Real.logb 2 (C.length : ℝ) / (C.length : ℝ)))).sum :=
        List.sum_le_sum (entropy_term_le g C)
    _ = Real.logb 2 (C.length : ℝ) := entropy_bound_sum g C hC

lemma patternList_ne_nil (g : Word) (C : List Word) (hC : C ≠ []) :
    patternList g C ≠ [] := by
  rw [patternList, Ne, List.map_eq_nil_iff]
  exact hC

lemma entropy_eq_zero_iff (g : Word) (C : List Word) (hC : C ≠ []) :
    expected_entropy g C = 0 ↔ (patternList g C).dedup.length = 1 := by
  have hn : 0 < C.length := List.length_pos.mpr hC
  have hN : (0 : ℝ) < (C.length : ℝ) := by exact_mod_cast hn
  constructor
  · intro h0
    by_contra hne
    have hge : 1 ≤ (patternList g C).dedup.length := by
      rcases List.exists_mem_of_ne_nil _ (patternList_ne_nil g C hC) with ⟨p, hp⟩
      exact List.length_pos.mpr (List.ne_nil_of_mem (List.mem_dedup.mpr hp))
    have h2 : 2 ≤ (patternList g C).dedup.length := by omega
    have hlt : ∀ c ∈ partitionCounts g C, c < C.length := by
      intro c hc
      rcases List.mem_map.mp hc with ⟨p, hp, hcp⟩
      have hq : ∃ q ∈ (patternList g C).dedup, q ≠ p := by
        by_contra hno
        push_neg at hno
        have := length_le_one_of_nodup_all_eq (List.nodup_dedup _) p hno
        omega
      rcases hq with ⟨q, hq1, hq2⟩
      refine lt_of_le_of_ne ?_ ?_
      · rw [← hcp, ← patternList_length g C]
        exact List.count_le_length p _
      · intro heq
        have hcount : List.count p (patternList g C) = (patternList g C).length := by
          rw [patternList_length]
          rw [← heq, ← hcp]
        have hall := List.count_eq_length.mp hcount
        exact hq2 ((hall q (List.mem_dedup.mp hq1)).symm)
    have hpos : 0 < expected_entropy g C := by
      rw [expected_entropy]
      apply List.sum_pos
      · intro x hx
        rcases List.mem_map.mp hx with ⟨c, hc, hxc⟩
        rw [← hxc]
        have h1 : 1 ≤ c := partitionCounts_pos g C c hc
        have hcR : (1 : ℝ) ≤ (c : ℝ) := by exact_mod_cast h1
        have hp : 0 < (c : ℝ) / (C.length : ℝ) :=
          div_pos (lt_of_lt_of_le zero_lt_one hcR) hN
        have hltR : (c : ℝ) < (C.length : ℝ) := by exact_mod_cast hlt c hc
        have hp1 : (c : ℝ) / (C.length : ℝ) < 1 := (div_lt_one hN).mpr hltR
        exact term_pos hp hp1
      · intro hnil
        exact (partitionCounts_ne_nil g C hC) (List.map_eq_nil_iff.mp hnil)
    exact absurd h0 (ne_of_gt hpos)
  · intro h1
    rcases List.length_eq_one.mp h1 with ⟨p, hp⟩
    have hallp : ∀ b ∈ patternList g C, p = b := by
      intro b hb
      have hm := List.mem_dedup.mpr hb
      rw [hp] at hm
      have hbp : b = p := by simpa using hm
      exact hbp.symm
    have hcount : List.count p (patternList g C) = (patternList g C).length :=
      List.count_eq_length.mpr hallp
    have hcounts : partitionCounts g C = [C.length] := by
      rw [partitionCounts, hp, List.map_cons, List.map_nil]
      rw [hcount, patternList_length]
    rw [expected_entropy, hcounts]
    simp only [List.map_cons, List.map_nil, List.sum_cons, List.sum_nil, add_zero]
    rw [div_self (ne_of_gt hN), Real.logb_one]
    ring

lemma entropy_eq_logb_iff (g : Word) (C : List Word) (hC : C ≠ []) :
    expected_entropy g C = Real.logb 2 (C.length : ℝ) ↔ (patternList g C).Nodup := by
  have hn : 0 < C.length := List.length_pos.mpr hC
  have hN : (0 : ℝ) < (C.length : ℝ) := by exact_mod_cast hn
  constructor
  · intro heq
    by_contra hnd
    have hex : ∃ a, 2 ≤ List.count a (patternList g C) := by
      by_contra hno
      push_neg at hno
      refine hnd (List.nodup_iff_count_le_one.mpr (fun a => ?_))
      rw [← count_pattern_instances]
      have := hno a
      omega
    rcases hex with ⟨a, ha⟩
    have hamem : a ∈ patternList g C := by
      have hpos : 0 < List.count a (patternList g C) := by omega
      exact List.count_pos_iff.mp hpos
    have hcmem : List.count a (patternList g C) ∈ partitionCounts g C :=
      List.mem_map.mpr ⟨a, List.mem_dedup.mpr hamem, rfl⟩
    have hstrict : expected_entropy g C < Real.logb 2 (C.length : ℝ) := by
      rw [expected_entropy]
      calc ((partitionCounts g C).map
            (fun c : ℕ => -(((c : ℝ) / (C.length : ℝ)) *
              Real.logb 2 ((c : ℝ) / (C.length : ℝ))))).sum
          < ((partitionCounts g C).map
            (fun c : ℕ => (c : ℝ) * (Real.logb 2 (C.length : ℝ) / (C.length : ℝ)))).sum := by
            apply List.sum_lt_sum
            · exact entropy_term_le g C
            · refine ⟨List.count a (patternList g C), hcmem, ?_⟩
              have h2R : (2 : ℝ) ≤ ((List.count a (patternList g C) : ℕ) : ℝ) := by
                exact_mod_cast ha
              have hlow : 1 / (C.length : ℝ) <
                  ((List.count a (patternList g C) : ℕ) : ℝ) / (C.length : ℝ) := by
                apply (div_lt_div_iff_of_pos_right hN).mpr
                linarith
              refine lt_of_lt_of_le (term_lt hN hlow) (le_of_eq (by ring))
        _ = Real.logb 2 (C.length : ℝ) := entropy_bound_sum g C hC
    exact absurd heq (ne_of_lt hstrict)
  · intro hnd
    have hdedup : (patternList g C).dedup = patternList g C := List.dedup_eq_self.mpr hnd
    have hcounts1 : ∀ c ∈ partitionCounts g C, c = 1 := by
      intro c hc
      rcases List.mem_map.mp hc with ⟨p, hp, hcp⟩
      rw [← hcp, count_pattern_instances]
      exact List.count_eq_one_of_mem hnd (List.mem_dedup.mp hp)
    have hlen : (partitionCounts g C).length = C.length := by
      rw [partitionCounts, List.length_map, hdedup, patternList_length]
    have hrep : (partitionCounts g C).map
        (fun c : ℕ => -(((c : ℝ) / (C.length : ℝ)) *
          Real.logb 2 ((c : ℝ) / (C.length : ℝ)))) =
        List.replicate C.length
          (-(((1 : ℝ) / (C.length : ℝ)) * Real.logb 2 ((1 : ℝ) / (C.length : ℝ)))) := by
      apply List.eq_replicate_iff.mpr
      constructor
      · rw [List.length_map, hlen]
      · intro b hb
        rcases List.mem_map.mp hb with ⟨c, hc, hbc⟩
        rw [← hbc, hcounts1 c hc]
        norm_num
    rw [expected_entropy, hrep, List.sum_replicate, nsmul_eq_mul]
    rw [one_div, Real.logb_inv]
    field_simp

lemma patterns_allsame_iff (g : Word) (C : List Word) :
    (∀ x ∈ patternList g C, ∀ y ∈ patternList g C, x = y) ↔
      ∀ w1 ∈ C, ∀ w2 ∈ C, feedback_pattern g w1 = feedback_pattern g w2 := by
  constructor
  · intro h w1 h1 w2 h2
    exact h _ (List.mem_map.mpr ⟨w1, h1, rfl⟩) _ (List.mem_map.mpr ⟨w2, h2, rfl⟩)
  · intro h x hx y hy
    rcases List.mem_map.mp hx with ⟨w1, h1, hx1⟩
    rcases List.mem_map.mp hy with ⟨w2, h2, hy2⟩
    rw [← hx1, ← hy2]
    exact h w1 h1 w2 h2

/-- C4: for a non-empty candidate list, `expected_entropy` lies in
[0, log2 |C|]; it is 0 exactly when every candidate yields the same
feedback pattern against the guess, and it attains log2 |C| exactly when
every candidate yields a distinct pattern. -/
theorem C4_entropy_bounds :
    ∀ (g : Word) (C : List Word), C ≠ [] →
      0 ≤ expected_entropy g C ∧
      expected_entropy g C ≤ Real.logb 2 (C.length : ℝ) ∧
      (expected_entropy g C = 0 ↔
        ∀ w1 ∈ C, ∀ w2 ∈ C, feedback_pattern g w1 = feedback_pattern g w2) ∧
      (expected_entropy g C = Real.logb 2 (C.length : ℝ) ↔
        (C.map (fun w => feedback_pattern g w)).Nodup) := by
  intro g C hC
  refine ⟨entropy_nonneg g C, entropy_le_logb g C hC, ?_, ?_⟩
  · rw [entropy_eq_zero_iff g C hC,
      dedup_length_one_iff (patternList_ne_nil g C hC),
      patterns_allsame_iff g C]
  · exact entropy_eq_logb_iff g C hC

/-- C4 witness: the bounds at the singleton candidate list ["trace"]
against the guess "crane". -/
theorem C4_entropy_bounds_witness :
    0 ≤ expected_entropy "crane" ["trace"] ∧
      expected_entropy "crane" ["trace"] ≤
        Real.logb 2 (((["trace"] : List Word)).length : ℝ) ∧
      (expected_entropy "crane" ["trace"] = 0 ↔
        ∀ w1 ∈ (["trace"] : List Word), ∀ w2 ∈ (["trace"] : List Word),
          feedback_pattern "crane" w1 = feedback_pattern "crane" w2) ∧
      (expected_entropy "crane" ["trace"] =
          Real.logb 2 (((["trace"] : List Word)).length : ℝ) ↔
        ((["trace"] : List Word).map (fun w => feedback_pattern "crane" w)).Nodup) :=
  C4_entropy_bounds "crane" ["trace"] (by decide)

/-- C8: the hybrid score is the α-weighted blend of entropy and the
normalised frequency; the normalisation clamps to [1, 7] and rescales to
[0, 1]; and any frequency at most 1 (including the 0 reported for an
unknown word) yields a frequency term of exactly 0. -/
theorem C8_hybrid_score_blend :
    ∀ (freq : Word → ℝ) (g : Word) (C : List Word) (alpha : ℝ),
      hybrid_score freq g C alpha =
        alpha * expected_entropy g C + (1 - alpha) * freq_norm (freq g) ∧
      freq_norm (freq g) = (max (min (freq g) 7) 1 - 1) / 6 ∧
      0 ≤ freq_norm (freq g) ∧ freq_norm (freq g) ≤ 1 ∧
      (freq g ≤ 1 →
        freq_norm (freq g) = 0 ∧
          hybrid_score freq g C alpha = alpha * expected_entropy g C) := by
  intro freq g C alpha
  have hlow : (1 : ℝ) ≤ max (min (freq g) 7) 1 := le_max_right _ _
  have hhigh : max (min (freq g) 7) 1 ≤ 7 :=
    max_le (min_le_right _ _) (by norm_num)
  refine ⟨rfl, rfl, ?_, ?_, ?_⟩
  · have : (0 : ℝ) ≤ max (min (freq g) 7) 1 - 1 := by linarith
    exact div_nonneg this (by norm_num)
  · rw [freq_norm, div_le_one (by norm_num)]
    linarith
  · intro hf
    have hclamp : max (min (freq g) 7) 1 = 1 :=
      max_eq_right (le_trans (min_le_left _ _) hf)
    have hz : freq_norm (freq g) = 0 := by
      rw [freq_norm, hclamp]
      norm_num
    refine ⟨hz, ?_⟩
    rw [hybrid_score, hz, mul_zero, add_zero]

/-- C8 witness: with the external signal returning 0 (an unknown word) the
frequency term vanishes and the score is pure weighted entropy. -/
theorem C8_hybrid_score_blend_witness :
    freq_norm ((fun _ => (0 : ℝ)) "crane") = 0 ∧
      hybrid_score (fun _ => 0) "crane" ["crane"] (1 / 2) =
        (1 / 2) * expected_entropy "crane" ["crane"] :=
  (C8_hybrid_score_blend (fun _ => 0) "crane" ["crane"] (1 / 2)).2.2.2.2
    (by norm_num)

/-- C1 (divergence witness): a solver constructed with
`filter_past_answers = True`, where past-answer filtering removed the word
"crane", starts with candidates `["rusty"]`; `reset()` empties the history
but sets the candidates to the full unfiltered dictionary
`["crane", "rusty"]`, which is not the construction-time candidate set. -/
theorem C1_reset_restores_all_words_not_initial_candidates :
    (initSolver ["crane", "rusty"] ["rusty"] true).candidates = ["rusty"] ∧
      ((initSolver ["crane", "rusty"] ["rusty"] true).reset).candidates =
        ["crane", "rusty"] ∧
      ((initSolver ["crane", "rusty"] ["rusty"] true).reset).history = [] ∧
      ((initSolver ["crane", "rusty"] ["rusty"] true).reset).candidates ≠
        (initSolver ["crane", "rusty"] ["rusty"] true).candidates := by
  exact ⟨rfl, rfl, rfl, by decide⟩

end Wordle
